import Mathlib

/-!
Shallow embedding of `src/Trie.h`: a prefix trie over lowercase ASCII
strings with `insert`, membership (`isWord`), enumeration (`getWords`)
and the `isLower` validation utility.  Words are modelled as `List Char`
(the contents of a `std::string`); a node's `children` vector is a
`List TrieNode` (empty until `createChildren` resizes it to 26 slots).
-/

namespace Trie

/-- The `'\0'` sentinel used for an unset node label. -/
def nul : Char := Char.ofNat 0

/-- `TrieNode` from the source: `char data`, `bool isWord`,
`std::vector<TrieNode> children` (default: `'\0'`, `false`, empty). -/
inductive TrieNode : Type where
  | mk : Char → Bool → List TrieNode → TrieNode

/-- Field `TrieNode::data`. -/
def TrieNode.data : TrieNode → Char
  | .mk d _ _ => d

/-- Field `TrieNode::isWord`. -/
def TrieNode.isWord : TrieNode → Bool
  | .mk _ w _ => w

/-- Field `TrieNode::children`. -/
def TrieNode.children : TrieNode → List TrieNode
  | .mk _ _ c => c

/-- A default-constructed `TrieNode`: data `'\0'`, flag false, no children. -/
def defaultNode : TrieNode := TrieNode.mk nul false []

/-- `TrieNode::createChildren` applied to an empty vector:
`children.resize(ALPHA_SIZE)` fills it with 26 default nodes. -/
def createdChildren : List TrieNode := List.replicate 26 defaultNode

/-- `TrieNode::hasChildren`: true iff some child slot holds a set node
(`data != '\0'`). -/
def TrieNode.hasChildren (n : TrieNode) : Bool :=
  n.children.any (fun c => c.data != nul)

/-- The child-slot index `s[i] - 'a'` (C++ char arithmetic, as a `Nat`
for the in-range lowercase characters the operations are used with). -/
def idx (c : Char) : Nat := c.toNat - 97

/-- The body of `Trie::insert`, expressed on the `children` vector of the
current node.  Each loop iteration takes the slot `s[i] - 'a'`, resizes the
child's `children` to 26 slots if empty, stores `data = s[i]`, sets
`isWord` when the final character is reached, and descends. -/
def insertCh : List TrieNode → List Char → List TrieNode
  | cs, [] => cs
  | cs, c :: rest =>
    let child := cs.getD (idx c) defaultNode
    let base := if child.children.isEmpty then createdChildren else child.children
    let flag := if rest.isEmpty then true else child.isWord
    cs.set (idx c) (TrieNode.mk c flag (insertCh base rest))

/-- `Trie::insert` (release build, no assertion): mutate the node graph
under the root; the root's own `data`/`isWord` fields are untouched. -/
def insert (t : TrieNode) (s : List Char) : TrieNode :=
  TrieNode.mk t.data t.isWord (insertCh t.children s)

/-- The root made by `Trie::Trie()`: `TrieNode('\0')`, whose constructor
stores `'\0'` and eagerly creates the 26 child slots. -/
def freshTrie : TrieNode := TrieNode.mk nul false createdChildren

/-- Fresh trie followed by a sequence of insertions. -/
def buildTrie (ws : List (List Char)) : TrieNode :=
  List.foldl insert freshTrie ws

/-- The loop of `Trie::isWord`: `flag` is the local `isWord` variable,
`cs` the `children` of the current node.  The loop breaks (returning the
current flag) when the current node's children vector is empty; otherwise
it descends into slot `c - 'a'` and records that node's flag. -/
def walk : List TrieNode → Bool → List Char → Bool
  | _, flag, [] => flag
  | cs, flag, c :: rest =>
    if cs.isEmpty then flag
    else
      let child := cs.getD (idx c) defaultNode
      walk child.children child.isWord rest

/-- `Trie::isWord` (release build, no assertion). -/
def isWord (t : TrieNode) (s : List Char) : Bool :=
  walk t.children false s

/-- The recursion of `Trie::getWordsImpl` over a node's child list.
State threaded through: `substr` (the shared path buffer) and `acc` (the
`words` output vector).  Faithfully includes the source's clear-on-leaf
step: when a set child has no set children, `substr` is cleared rather
than popped. -/
def getWordsAux : List TrieNode → List Char → List (List Char) → List Char × List (List Char)
  | [], substr, acc => (substr, acc)
  | TrieNode.mk d w cs :: rest, substr, acc =>
    if d = nul then getWordsAux rest substr acc
    else
      let s1 := substr ++ [d]
      let acc1 := if w then acc ++ [s1] else acc
      let s2 := if (TrieNode.mk d w cs).hasChildren then s1 else []
      let p := getWordsAux cs s2 acc1
      getWordsAux rest p.1 p.2
termination_by l _ _ => sizeOf l

/-- `Trie::getWords`: run the traversal from the root with an empty
buffer and return the collected word list. -/
def getWords (t : TrieNode) : List (List Char) :=
  (getWordsAux t.children [] []).2

/-- Fuel-indexed copy of `getWordsAux`, structurally recursive on the
fuel so that the kernel can evaluate it on concrete tries; proved equal
to `getWordsAux` whenever the fuel covers the size of the node list. -/
def getWordsFuel : Nat → List TrieNode → List Char → List (List Char) → List Char × List (List Char)
  | 0, _, substr, acc => (substr, acc)
  | _ + 1, [], substr, acc => (substr, acc)
  | fuel + 1, TrieNode.mk d w cs :: rest, substr, acc =>
    if d = nul then getWordsFuel fuel rest substr acc
    else
      let s1 := substr ++ [d]
      let acc1 := if w then acc ++ [s1] else acc
      let s2 := if (TrieNode.mk d w cs).hasChildren then s1 else []
      let p := getWordsFuel fuel cs s2 acc1
      getWordsFuel fuel rest p.1 p.2

/-- One character of `Trie::isLower`'s test (`islower` in the C locale):
`'a' <= c && c <= 'z'`. -/
def isLowerChar (c : Char) : Bool := 97 ≤ c.toNat && c.toNat ≤ 122

/-- `Trie::isLower`: `std::all_of` over the string. -/
def isLower (s : List Char) : Bool := s.all isLowerChar

/-- `Trie::insert` in a checked (assertion-enabled) build:
`assert(isLower(s))` runs before any mutation; `none` models the abort. -/
def insertChecked (t : TrieNode) (s : List Char) : Option TrieNode :=
  if isLower s then some (insert t s) else none

/-- `Trie::isWord` in a checked (assertion-enabled) build. -/
def isWordChecked (t : TrieNode) (s : List Char) : Option Bool :=
  if isLower s then some (isWord t s) else none

/-- Strict lexicographic (dictionary) order on words, character by
character with the natural order of the alphabet. -/
def lexLt : List Char → List Char → Bool
  | [], [] => false
  | [], _ :: _ => true
  | _ :: _, [] => false
  | a :: as, b :: bs => if a < b then true else if b < a then false else lexLt as bs

/-- Strict ascending lexicographic sortedness of a word sequence. -/
def sortedLex : List (List Char) → Bool
  | [] => true
  | [_] => true
  | a :: b :: rest => lexLt a b && sortedLex (b :: rest)

/-- A valid word per the caller contract: non-empty, all lowercase. -/
def validWord (w : List Char) : Prop := w ≠ [] ∧ ∀ c ∈ w, isLowerChar c = true

instance : DecidablePred validWord := fun w => by
  unfold validWord; infer_instance

/-- Observable operations of the trie.  `contains` and `words` are reads:
the source never writes a node field in them, so their embedding returns
the tree unchanged next to their result. -/
inductive Op : Type where
  | ins : List Char → Op
  | qry : List Char → Op
  | enum : Op

/-- Run `Trie::isWord` as a state transformer: result plus the tree it
leaves behind (the loop only reads `children`/`isWord`). -/
def containsRun (t : TrieNode) (s : List Char) : Bool × TrieNode :=
  (isWord t s, t)

/-- Run `Trie::getWords` as a state transformer: result plus the tree it
leaves behind (`getWordsImpl` takes the node by const reference and
writes only its local buffer and output vector). -/
def getWordsRun (t : TrieNode) : List (List Char) × TrieNode :=
  (getWords t, t)

/-- State after one operation. -/
def applyOp (t : TrieNode) : Op → TrieNode
  | .ins w => insert t w
  | .qry w => (containsRun t w).2
  | .enum => (getWordsRun t).2

/-- State after a sequence of operations. -/
def runOps (t : TrieNode) (ops : List Op) : TrieNode :=
  List.foldl applyOp t ops

/-- The eager-allocation invariant of the node graph: the node's
`children` vector has exactly 26 slots; every empty slot (`data = '\0'`)
is a default-constructed node; every occupied slot satisfies the
invariant recursively. -/
inductive Alloc : TrieNode → Prop where
  | intro {d : Char} {w : Bool} {cs : List TrieNode} :
      cs.length = 26 →
      (∀ c ∈ cs, c.data = nul → c = defaultNode) →
      (∀ c ∈ cs, c.data ≠ nul → Alloc c) →
      Alloc (TrieNode.mk d w cs)

/-- The same invariant phrased on a `children` vector. -/
def AllocCh (cs : List TrieNode) : Prop :=
  cs.length = 26 ∧
    (∀ c ∈ cs, c.data = nul → c = defaultNode) ∧
    (∀ c ∈ cs, c.data ≠ nul → Alloc c)

/-- Occurrence of a node in the node graph: the root itself, or a node
occurring inside one of the children. -/
inductive InTree : TrieNode → TrieNode → Prop where
  | refl (t : TrieNode) : InTree t t
  | step {n c t : TrieNode} : c ∈ t.children → InTree n c → InTree n t

/-! ### Basic lemmas -/

@[simp] theorem TrieNode.data_mk (d : Char) (w : Bool) (cs : List TrieNode) :
    (TrieNode.mk d w cs).data = d := rfl

@[simp] theorem TrieNode.isWord_mk (d : Char) (w : Bool) (cs : List TrieNode) :
    (TrieNode.mk d w cs).isWord = w := rfl

@[simp] theorem TrieNode.children_mk (d : Char) (w : Bool) (cs : List TrieNode) :
    (TrieNode.mk d w cs).children = cs := rfl

theorem TrieNode.eta (n : TrieNode) : TrieNode.mk n.data n.isWord n.children = n := by
  cases n
  rfl

theorem set_oob {α : Type} (l : List α) (i : Nat) (a : α) (h : l.length ≤ i) :
    l.set i a = l := by
  induction l generalizing i with
  | nil => rfl
  | cons x xs ih =>
    cases i with
    | zero => simp at h
    | succ j =>
      simp only [List.set]
      rw [ih j (by simpa using h)]

theorem getD_set_self {α : Type} (l : List α) (i : Nat) (a d : α) (h : i < l.length) :
    (l.set i a).getD i d = a := by
  rw [List.getD_eq_getElem _ _ (by simpa using h)]
  exact List.getElem_set_self (by simpa using h)

theorem getD_set_ne {α : Type} (l : List α) {i j : Nat} (a d : α) (h : i ≠ j) :
    (l.set i a).getD j d = l.getD j d := by
  rw [List.getD_eq_getElem?_getD, List.getD_eq_getElem?_getD, List.getElem?_set_ne h]

theorem getD_replicate_self {α : Type} (n m : Nat) (a : α) :
    (List.replicate n a).getD m a = a := by
  rw [List.getD_eq_getElem?_getD, List.getElem?_replicate]
  by_cases h : m < n <;> simp [h]

theorem getD_mem {α : Type} (l : List α) (i : Nat) (d : α) (h : i < l.length) :
    l.getD i d ∈ l := by
  rw [List.getD_eq_getElem _ _ h]
  exact List.getElem_mem h

/-! ### The fuelled traversal agrees with `getWordsAux` -/

theorem getWordsAux_eq_fuel :
    ∀ (fuel : Nat) (l : List TrieNode) (substr : List Char) (acc : List (List Char)),
      sizeOf l ≤ fuel → getWordsAux l substr acc = getWordsFuel fuel l substr acc := by
  intro fuel
  induction fuel with
  | zero =>
    intro l substr acc h
    cases l with
    | nil => simp at h
    | cons x xs => simp [List.cons.sizeOf_spec] at h
  | succ f ih =>
    intro l substr acc h
    cases l with
    | nil => rw [getWordsAux.eq_def]; rfl
    | cons x xs =>
      cases x with
      | mk d w cs =>
        simp only [List.cons.sizeOf_spec, TrieNode.mk.sizeOf_spec] at h
        rw [getWordsAux.eq_def]
        by_cases hd : d = nul
        · simp only [getWordsFuel, if_pos hd]
          exact ih xs substr acc (by omega)
        · simp only [getWordsFuel, if_neg hd]
          rw [ih cs _ _ (by omega), ih xs _ _ (by omega)]

/-! ### Character lemmas -/

theorem lower_idx_lt {c : Char} (h : isLowerChar c = true) : idx c < 26 := by
  simp only [isLowerChar, Bool.and_eq_true, decide_eq_true_eq] at h
  simp only [idx]
  omega

theorem lower_ne_nul {c : Char} (h : isLowerChar c = true) : c ≠ nul := by
  simp only [isLowerChar, Bool.and_eq_true, decide_eq_true_eq] at h
  intro hc
  rw [hc] at h
  simp [nul, Char.toNat] at h

theorem lower_idx_inj {c c' : Char} (h : isLowerChar c = true) (h' : isLowerChar c' = true)
    (hi : idx c = idx c') : c = c' := by
  simp only [isLowerChar, Bool.and_eq_true, decide_eq_true_eq] at h h'
  have ht : c.toNat = c'.toNat := by
    simp only [idx] at hi
    omega
  rw [← Char.ofNat_toNat c, ← Char.ofNat_toNat c', ht]

/-! ### `insertCh` basics -/

theorem insertCh_nil (cs : List TrieNode) : insertCh cs [] = cs := rfl

theorem insertCh_cons (cs : List TrieNode) (c : Char) (rest : List Char) :
    insertCh cs (c :: rest) =
      cs.set (idx c)
        (TrieNode.mk c
          (if rest.isEmpty then true else (cs.getD (idx c) defaultNode).isWord)
          (insertCh
            (if (cs.getD (idx c) defaultNode).children.isEmpty then createdChildren
             else (cs.getD (idx c) defaultNode).children)
            rest)) := rfl

theorem length_insertCh (v : List Char) : ∀ cs : List TrieNode, (insertCh cs v).length = cs.length := by
  induction v with
  | nil => intro cs; rfl
  | cons c rest ih => intro cs; rw [insertCh_cons, List.length_set]

theorem createdChildren_ne_nil : createdChildren ≠ [] := by
  simp [createdChildren]

/-! ### `walk` basics -/

theorem walk_term (cs : List TrieNode) (flag : Bool) : walk cs flag [] = flag := rfl

theorem walk_nil_cs (flag : Bool) (w : List Char) : walk [] flag w = flag := by
  cases w <;> rfl

theorem walk_cons (cs : List TrieNode) (flag : Bool) (c : Char) (rest : List Char)
    (h : cs ≠ []) :
    walk cs flag (c :: rest) =
      walk (cs.getD (idx c) defaultNode).children (cs.getD (idx c) defaultNode).isWord rest := by
  rw [walk]
  simp [List.isEmpty_eq_false.mpr h]

theorem getD_createdChildren (i : Nat) : createdChildren.getD i defaultNode = defaultNode := by
  simpa [createdChildren] using getD_replicate_self 26 i defaultNode

theorem walk_created (flag : Bool) (c : Char) (rest : List Char) :
    walk createdChildren flag (c :: rest) = false := by
  rw [walk_cons _ _ _ _ createdChildren_ne_nil, getD_createdChildren]
  simp only [defaultNode, TrieNode.children_mk, TrieNode.isWord_mk]
  exact walk_nil_cs false rest

theorem isWord_fresh (w : List Char) : isWord freshTrie w = false := by
  cases w with
  | nil => rfl
  | cons c rest =>
    show walk createdChildren false (c :: rest) = false
    exact walk_created false c rest

/-! ### The allocation invariant -/

theorem allocCh_iff (d : Char) (w : Bool) (cs : List TrieNode) :
    Alloc (TrieNode.mk d w cs) ↔ AllocCh cs := by
  constructor
  · intro h
    cases h with
    | intro hlen hdef hocc => exact ⟨hlen, hdef, hocc⟩
  · intro h
    exact Alloc.intro h.1 h.2.1 h.2.2

theorem allocCh_created : AllocCh createdChildren := by
  refine ⟨by simp [createdChildren], ?_, ?_⟩
  · intro c hc _
    exact (List.mem_replicate.mp hc).2
  · intro c hc hne
    exact absurd (by rw [(List.mem_replicate.mp hc).2]; rfl) hne

theorem alloc_fresh : Alloc freshTrie :=
  (allocCh_iff _ _ _).mpr allocCh_created

theorem allocCh_children {t : TrieNode} (h : Alloc t) : AllocCh t.children := by
  cases h with
  | intro hlen hdef hocc => exact ⟨hlen, hdef, hocc⟩

theorem alloc_children_ne_nil {t : TrieNode} (h : Alloc t) : t.children ≠ [] := by
  have hlen := (allocCh_children h).1
  intro hnil
  rw [hnil] at hlen
  simp at hlen

theorem allocCh_base {cs : List TrieNode} (hcs : AllocCh cs) {i : Nat} (hi : i < cs.length) :
    AllocCh
      (if (cs.getD i defaultNode).children.isEmpty then createdChildren
       else (cs.getD i defaultNode).children) := by
  have hmem : cs.getD i defaultNode ∈ cs := getD_mem cs i defaultNode hi
  by_cases hd : (cs.getD i defaultNode).data = nul
  · have hdef : cs.getD i defaultNode = defaultNode := hcs.2.1 _ hmem hd
    rw [hdef]
    exact allocCh_created
  · have halloc : Alloc (cs.getD i defaultNode) := hcs.2.2 _ hmem hd
    have hne := alloc_children_ne_nil halloc
    have hemp : (cs.getD i defaultNode).children.isEmpty = false :=
      List.isEmpty_eq_false.mpr hne
    rw [if_neg (by rw [hemp]; simp)]
    exact allocCh_children halloc

theorem allocCh_insertCh (v : List Char) :
    ∀ cs : List TrieNode, AllocCh cs → (∀ c ∈ v, isLowerChar c = true) →
      AllocCh (insertCh cs v) := by
  induction v with
  | nil => intro cs hcs _; exact hcs
  | cons c rest ih =>
    intro cs hcs hv
    have hc : isLowerChar c = true := hv c (List.mem_cons_self c rest)
    have hi : idx c < cs.length := by rw [hcs.1]; exact lower_idx_lt hc
    rw [insertCh_cons]
    have hbase := allocCh_base hcs hi
    have hnew : Alloc (TrieNode.mk c
        (if rest.isEmpty then true else (cs.getD (idx c) defaultNode).isWord)
        (insertCh
          (if (cs.getD (idx c) defaultNode).children.isEmpty then createdChildren
           else (cs.getD (idx c) defaultNode).children) rest)) :=
      (allocCh_iff _ _ _).mpr (ih _ hbase (fun x hx => hv x (List.mem_cons_of_mem c hx)))
    refine ⟨by rw [List.length_set]; exact hcs.1, ?_, ?_⟩
    · intro x hx hxd
      rcases List.mem_or_eq_of_mem_set hx with hmem | rfl
      · exact hcs.2.1 x hmem hxd
      · exact absurd hxd (by simpa using lower_ne_nul hc)
    · intro x hx hxd
      rcases List.mem_or_eq_of_mem_set hx with hmem | rfl
      · exact hcs.2.2 x hmem hxd
      · exact hnew

theorem alloc_insert {t : TrieNode} (v : List Char) (ht : Alloc t)
    (hv : ∀ c ∈ v, isLowerChar c = true) : Alloc (insert t v) :=
  (allocCh_iff _ _ _).mpr (allocCh_insertCh v t.children (allocCh_children ht) hv)

theorem alloc_foldl (ws : List (List Char)) :
    ∀ t : TrieNode, Alloc t → (∀ u ∈ ws, ∀ c ∈ u, isLowerChar c = true) →
      Alloc (List.foldl insert t ws) := by
  induction ws with
  | nil => intro t ht _; exact ht
  | cons v ws ih =>
    intro t ht hws
    rw [List.foldl_cons]
    exact ih _ (alloc_insert v ht (hws v (List.mem_cons_self v ws)))
      (fun u hu => hws u (List.mem_cons_of_mem v hu))

theorem alloc_buildTrie (ws : List (List Char))
    (hws : ∀ u ∈ ws, ∀ c ∈ u, isLowerChar c = true) : Alloc (buildTrie ws) :=
  alloc_foldl ws freshTrie alloc_fresh hws

/-! ### The effect of one insertion on membership -/

theorem set_ne_nil (cs : List TrieNode) (i : Nat) (x : TrieNode) (h : cs ≠ []) :
    cs.set i x ≠ [] := by
  intro he
  apply h
  have hlen := List.length_set cs i x
  rw [he] at hlen
  exact List.length_eq_zero.mp hlen.symm

theorem walk_flag_irrel (cs : List TrieNode) (f f' : Bool) (c : Char) (rest : List Char)
    (h : cs ≠ []) : walk cs f (c :: rest) = walk cs f' (c :: rest) := by
  rw [walk_cons _ _ _ _ h, walk_cons _ _ _ _ h]

theorem walk_base_eq (cs : List TrieNode) (i : Nat) (hcs : AllocCh cs) (hi : i < cs.length)
    (w : List Char) :
    walk
      (if (cs.getD i defaultNode).children.isEmpty then createdChildren
       else (cs.getD i defaultNode).children)
      (cs.getD i defaultNode).isWord w =
    walk (cs.getD i defaultNode).children (cs.getD i defaultNode).isWord w := by
  by_cases hd : (cs.getD i defaultNode).data = nul
  · have hdef : cs.getD i defaultNode = defaultNode := hcs.2.1 _ (getD_mem cs i defaultNode hi) hd
    rw [hdef]
    cases w with
    | nil => rfl
    | cons c rest =>
      show walk createdChildren defaultNode.isWord (c :: rest) =
        walk defaultNode.children defaultNode.isWord (c :: rest)
      rw [walk_created]
      simp only [defaultNode, TrieNode.children_mk, TrieNode.isWord_mk]
      rw [walk_nil_cs]
  · have halloc : Alloc (cs.getD i defaultNode) := hcs.2.2 _ (getD_mem cs i defaultNode hi) hd
    have hne := alloc_children_ne_nil halloc
    have hemp : (cs.getD i defaultNode).children.isEmpty = false :=
      List.isEmpty_eq_false.mpr hne
    rw [if_neg (by rw [hemp]; simp)]

theorem walk_insertCh (v : List Char) :
    ∀ (w : List Char) (cs : List TrieNode) (flag : Bool),
      AllocCh cs → v ≠ [] → (∀ c ∈ v, isLowerChar c = true) →
      (∀ c ∈ w, isLowerChar c = true) →
      walk (insertCh cs v) flag w = (decide (v = w) || walk cs flag w) := by
  induction v with
  | nil => intro w cs flag _ hv _ _; exact absurd rfl hv
  | cons c v' ih =>
    intro w cs flag hcs _ hv hw
    have hc : isLowerChar c = true := hv c (List.mem_cons_self c v')
    have hilt : idx c < cs.length := by rw [hcs.1]; exact lower_idx_lt hc
    have hcsne : cs ≠ [] := by
      intro h
      rw [h] at hilt
      simp at hilt
    rw [insertCh_cons]
    cases w with
    | nil =>
      rw [walk_term, walk_term]
      simp
    | cons c' w' =>
      have hc' : isLowerChar c' = true := hw c' (List.mem_cons_self c' w')
      rw [walk_cons _ _ _ _ (set_ne_nil cs _ _ hcsne), walk_cons _ _ _ _ hcsne]
      by_cases heq : c' = c
      · subst heq
        rw [getD_set_self _ _ _ _ hilt]
        simp only [TrieNode.children_mk, TrieNode.isWord_mk]
        have hbase := allocCh_base hcs hilt
        have hbasene : (if (cs.getD (idx c') defaultNode).children.isEmpty then createdChildren
            else (cs.getD (idx c') defaultNode).children) ≠ [] := by
          intro h
          have := hbase.1
          rw [h] at this
          simp at this
        cases v' with
        | nil =>
          simp only [List.isEmpty_nil, if_true, insertCh_nil]
          cases w' with
          | nil =>
            rw [walk_term, walk_term]
            simp
          | cons c'' w'' =>
            have hlhs : walk (if (cs.getD (idx c') defaultNode).children.isEmpty then
                createdChildren else (cs.getD (idx c') defaultNode).children) true (c'' :: w'') =
                walk (if (cs.getD (idx c') defaultNode).children.isEmpty then createdChildren
                else (cs.getD (idx c') defaultNode).children)
                  (cs.getD (idx c') defaultNode).isWord (c'' :: w'') :=
              walk_flag_irrel _ _ _ _ _ hbasene
            rw [hlhs, walk_base_eq cs _ hcs hilt]
            simp
        | cons c2 v'' =>
          simp only [List.isEmpty_cons, Bool.false_eq_true, if_false]
          rw [ih w' _ (cs.getD (idx c') defaultNode).isWord hbase (by simp)
            (fun x hx => hv x (List.mem_cons_of_mem c' hx))
            (fun x hx => hw x (List.mem_cons_of_mem c' hx))]
          rw [walk_base_eq cs _ hcs hilt]
          simp [List.cons.injEq]
      · have hne : idx c ≠ idx c' := by
          intro h
          exact heq (lower_idx_inj hc' hc h.symm)
        rw [getD_set_ne cs _ _ hne]
        have hdec : ((c :: v' : List Char) = (c' :: w' : List Char)) = False := by
          simp only [List.cons.injEq]
          exact eq_false (fun h => heq h.1.symm)
        simp [hdec]

theorem isWord_insert (t : TrieNode) (v w : List Char) (ht : Alloc t) (hv0 : v ≠ [])
    (hv : ∀ c ∈ v, isLowerChar c = true) (hw : ∀ c ∈ w, isLowerChar c = true) :
    isWord (insert t v) w = (decide (v = w) || isWord t w) := by
  show walk (insert t v).children false w = (decide (v = w) || walk t.children false w)
  simp only [insert, TrieNode.children_mk]
  exact walk_insertCh v w t.children false (allocCh_children ht) hv0 hv hw

theorem isWord_foldl (ws : List (List Char)) :
    ∀ t : TrieNode, Alloc t → (∀ u ∈ ws, validWord u) →
      ∀ w : List Char, (∀ c ∈ w, isLowerChar c = true) →
      (isWord (List.foldl insert t ws) w = true ↔ w ∈ ws ∨ isWord t w = true) := by
  induction ws with
  | nil =>
    intro t _ _ w _
    simp
  | cons v ws ih =>
    intro t ht hws w hw
    have hv := hws v (List.mem_cons_self v ws)
    rw [List.foldl_cons,
      ih (insert t v) (alloc_insert v ht hv.2) (fun u hu => hws u (List.mem_cons_of_mem v hu)) w hw,
      isWord_insert t v w ht hv.1 hv.2 hw]
    simp only [Bool.or_eq_true, decide_eq_true_eq, List.mem_cons]
    constructor
    · rintro (hmem | hvw | hiw)
      · exact Or.inl (Or.inr hmem)
      · exact Or.inl (Or.inl hvw.symm)
      · exact Or.inr hiw
    · rintro ((hwv | hmem) | hiw)
      · exact Or.inr (Or.inl hwv.symm)
      · exact Or.inl hmem
      · exact Or.inr (Or.inr hiw)

/-! ### Idempotence of insertion -/

theorem base_ne_nil (child : TrieNode) :
    (if child.children.isEmpty then createdChildren else child.children) ≠ [] := by
  by_cases h : child.children.isEmpty = true
  · rw [if_pos h]
    exact createdChildren_ne_nil
  · rw [if_neg h]
    exact fun he => h (by rw [he]; rfl)

theorem insertCh_base_ne_nil (child : TrieNode) (v : List Char) :
    insertCh (if child.children.isEmpty then createdChildren else child.children) v ≠ [] := by
  intro h
  apply base_ne_nil child
  have hl := length_insertCh v (if child.children.isEmpty then createdChildren else child.children)
  rw [h] at hl
  exact List.length_eq_zero.mp hl.symm

theorem insertCh_idem (v : List Char) :
    ∀ cs : List TrieNode, insertCh (insertCh cs v) v = insertCh cs v := by
  induction v with
  | nil => intro cs; rfl
  | cons c v' ih =>
    intro cs
    by_cases hlen : cs.length ≤ idx c
    · have hset : insertCh cs (c :: v') = cs := by
        rw [insertCh_cons]
        exact set_oob _ _ _ hlen
      rw [hset]
      exact hset
    · push_neg at hlen
      rw [insertCh_cons cs c v']
      rw [insertCh_cons]
      rw [getD_set_self _ _ _ _ hlen]
      simp only [TrieNode.children_mk, TrieNode.isWord_mk]
      have hemp : (insertCh
          (if (cs.getD (idx c) defaultNode).children.isEmpty then createdChildren
           else (cs.getD (idx c) defaultNode).children) v').isEmpty = false :=
        List.isEmpty_eq_false.mpr (insertCh_base_ne_nil _ v')
      have hif : (if (insertCh
            (if (cs.getD (idx c) defaultNode).children.isEmpty then createdChildren
             else (cs.getD (idx c) defaultNode).children) v').isEmpty = true then
            createdChildren
          else insertCh
            (if (cs.getD (idx c) defaultNode).children.isEmpty then createdChildren
             else (cs.getD (idx c) defaultNode).children) v') =
          insertCh
            (if (cs.getD (idx c) defaultNode).children.isEmpty then createdChildren
             else (cs.getD (idx c) defaultNode).children) v' :=
        if_neg (by rw [hemp]; simp)
      rw [hif, ih, List.set_set]
      cases v' with
      | nil => simp
      | cons c2 v'' => simp

/-! ### Commutativity of insertion -/

theorem insertCh_cons_set_self (cs : List TrieNode) (d b : Char) (fl : Bool)
    (gs : List TrieNode) (w' : List Char) (hi : idx b < cs.length) (hgs : gs ≠ []) :
    insertCh (cs.set (idx b) (TrieNode.mk d fl gs)) (b :: w') =
      cs.set (idx b) (TrieNode.mk b (if w'.isEmpty then true else fl) (insertCh gs w')) := by
  rw [insertCh_cons, getD_set_self _ _ _ _ hi]
  simp only [TrieNode.children_mk, TrieNode.isWord_mk]
  have hif : (if gs.isEmpty = true then createdChildren else gs) = gs :=
    if_neg (by rw [List.isEmpty_eq_false.mpr hgs]; simp)
  rw [hif, List.set_set]

theorem insertCh_set_other (cs : List TrieNode) (j : Nat) (y : TrieNode) (b : Char)
    (w' : List Char) (hj : idx b ≠ j) :
    insertCh (cs.set j y) (b :: w') = (insertCh cs (b :: w')).set j y := by
  rw [insertCh_cons, insertCh_cons]
  rw [getD_set_ne cs _ _ (Ne.symm hj)]
  rw [List.set_comm _ _ cs hj]

theorem insertCh_comm (v : List Char) :
    ∀ (w : List Char) (cs : List TrieNode), AllocCh cs →
      (∀ c ∈ v, isLowerChar c = true) → (∀ c ∈ w, isLowerChar c = true) →
      insertCh (insertCh cs v) w = insertCh (insertCh cs w) v := by
  induction v with
  | nil => intro w cs _ _ _; rfl
  | cons a v' ih =>
    intro w cs hcs hv hw
    cases w with
    | nil => rfl
    | cons b w' =>
      have ha : isLowerChar a = true := hv a (List.mem_cons_self a v')
      have hb : isLowerChar b = true := hw b (List.mem_cons_self b w')
      have hia : idx a < cs.length := by rw [hcs.1]; exact lower_idx_lt ha
      have hib : idx b < cs.length := by rw [hcs.1]; exact lower_idx_lt hb
      by_cases hab : a = b
      · subst hab
        have hbase := allocCh_base hcs hia
        rw [insertCh_cons cs a v', insertCh_cons cs a w']
        rw [insertCh_cons_set_self cs a a _ _ w' hia (insertCh_base_ne_nil _ v')]
        rw [insertCh_cons_set_self cs a a _ _ v' hia (insertCh_base_ne_nil _ w')]
        rw [ih w' _ hbase (fun x hx => hv x (List.mem_cons_of_mem a hx))
          (fun x hx => hw x (List.mem_cons_of_mem a hx))]
        congr 1
        cases v' with
        | nil => cases w' <;> simp
        | cons c2 v'' => cases w' <;> simp
      · have hij : idx a ≠ idx b := fun h => hab (lower_idx_inj ha hb h)
        rw [insertCh_cons cs a v']
        rw [insertCh_set_other cs (idx a) _ b w' (Ne.symm hij)]
        rw [insertCh_cons cs b w']
        rw [insertCh_set_other cs (idx b) _ a v' hij]
        rw [insertCh_cons cs a v']
        rw [List.set_comm _ _ cs (Ne.symm hij)]

theorem insert_comm (t : TrieNode) (v w : List Char) (ht : Alloc t)
    (hv : ∀ c ∈ v, isLowerChar c = true) (hw : ∀ c ∈ w, isLowerChar c = true) :
    insert (insert t v) w = insert (insert t w) v := by
  simp only [insert, TrieNode.data_mk, TrieNode.isWord_mk, TrieNode.children_mk]
  rw [insertCh_comm v w t.children (allocCh_children ht) hv hw]

theorem foldl_insert_perm {l₁ l₂ : List (List Char)} (hp : l₁.Perm l₂) :
    (∀ u ∈ l₁, ∀ c ∈ u, isLowerChar c = true) →
    ∀ t : TrieNode, Alloc t → List.foldl insert t l₁ = List.foldl insert t l₂ := by
  induction hp with
  | nil => intro _ t _; rfl
  | cons x hp ih =>
    intro hval t ht
    rw [List.foldl_cons, List.foldl_cons]
    exact ih (fun u hu => hval u (List.mem_cons_of_mem x hu)) (insert t x)
      (alloc_insert x ht (hval x (List.mem_cons_self x _)))
  | swap x y l =>
    intro hval t ht
    rw [List.foldl_cons, List.foldl_cons, List.foldl_cons, List.foldl_cons]
    rw [insert_comm t y x ht (hval y (List.mem_cons_self y _))
      (hval x (List.mem_cons_of_mem y (List.mem_cons_self x _)))]
  | trans hp₁ hp₂ ih₁ ih₂ =>
    intro hval t ht
    rw [ih₁ hval t ht, ih₂ (fun u hu => hval u (hp₁.mem_iff.mpr hu)) t ht]

/-! ### Nodes occurring in the tree -/

theorem inTree_default {n : TrieNode} (h : InTree n defaultNode) : n = defaultNode := by
  cases h with
  | refl => rfl
  | step hc _ => simp [defaultNode] at hc

theorem alloc_terminal_children {t : TrieNode} (ht : Alloc t) :
    ∀ n : TrieNode, InTree n t → n.isWord = true → n.children.length = 26 := by
  induction ht with
  | intro hlen hdef hocc ih =>
    rename_i d wd cs
    intro n hn hw
    cases hn with
    | refl => simpa using hlen
    | step hc hn' =>
      rename_i cnode
      have hcs : cnode ∈ cs := by simpa using hc
      by_cases hd : cnode.data = nul
      · have hdefn : cnode = defaultNode := hdef cnode hcs hd
        rw [hdefn] at hn'
        rw [inTree_default hn'] at hw
        simp [defaultNode] at hw
      · exact ih cnode hcs hd n hn' hw

/-! ### Sanity checks against `testTrie` from the source -/

theorem scenario_membership :
    isWord (buildTrie [['m','a','n','y'], ['m','a','n'], ['q','u','i','c','k'],
      ['q','u','i','c','k','l','y']]) ['m','a','n','y'] = true ∧
    isWord (buildTrie [['m','a','n','y'], ['m','a','n'], ['q','u','i','c','k'],
      ['q','u','i','c','k','l','y']]) ['m','a','n'] = true ∧
    isWord (buildTrie [['m','a','n','y'], ['m','a','n'], ['q','u','i','c','k'],
      ['q','u','i','c','k','l','y']]) ['m','a'] = false ∧
    isWord (buildTrie [['m','a','n','y'], ['m','a','n'], ['q','u','i','c','k'],
      ['q','u','i','c','k','l','y']]) ['m'] = false ∧
    isWord (buildTrie [['m','a','n','y'], ['m','a','n'], ['q','u','i','c','k'],
      ['q','u','i','c','k','l','y']]) ['q','u','i','c','k'] = true ∧
    isWord (buildTrie [['m','a','n','y'], ['m','a','n'], ['q','u','i','c','k'],
      ['q','u','i','c','k','l','y']]) ['q','u','i','c','k','l','y'] = true ∧
    isWord (buildTrie [['m','a','n','y'], ['m','a','n'], ['q','u','i','c','k'],
      ['q','u','i','c','k','l','y']]) ['z'] = false ∧
    isWord freshTrie ['m','a','n','y'] = false := by
  decide

theorem scenario_words :
    getWords (buildTrie [['m','a','n','y'], ['m','a','n'], ['q','u','i','c','k'],
      ['q','u','i','c','k','l','y']]) =
      [['m','a','n'], ['m','a','n','y'], ['q','u','i','c','k'], ['q','u','i','c','k','l','y']] := by
  rw [getWords, getWordsAux_eq_fuel 1000000 _ [] [] (by decide)]
  decide

theorem scenario_empty : getWords freshTrie = [] := by
  rw [getWords, getWordsAux_eq_fuel 10000 _ [] [] (by decide)]
  decide

/-! ### The claims -/

/-- C1: the round-trip property fails on the code.  Inserting `"ab"` then
`"ac"` into a fresh trie makes `getWords` return `["ab", "c"]` — the
clear-on-leaf step of `getWordsImpl` wipes the whole path buffer after
the leaf `b`, so the sibling branch emits `"c"` instead of `"ac"` — and
not the sorted distinct list `["ab", "ac"]` demanded by the claim. -/
theorem getWords_ab_ac_eval :
    getWords (buildTrie [['a','b'], ['a','c']]) = [['a','b'], ['c']] ∧
    getWords (buildTrie [['a','b'], ['a','c']]) ≠ [['a','b'], ['a','c']] := by
  have h : getWords (buildTrie [['a','b'], ['a','c']]) = [['a','b'], ['c']] := by
    rw [getWords, getWordsAux_eq_fuel 1000000 _ [] [] (by decide)]
    decide
  exact ⟨h, by rw [h]; decide⟩

/-- C2: sorted enumeration fails on the code.  After inserting `"ab"`,
`"ac"`, `"b"`, `getWords` returns `["ab", "c", "b"]`, which is not a
strictly increasing lexicographic sequence (`"c" > "b"`). -/
theorem getWords_unsorted_eval :
    getWords (buildTrie [['a','b'], ['a','c'], ['b']]) = [['a','b'], ['c'], ['b']] ∧
    sortedLex (getWords (buildTrie [['a','b'], ['a','c'], ['b']])) = false ∧
    lexLt ['c'] ['b'] = false := by
  have h : getWords (buildTrie [['a','b'], ['a','c'], ['b']]) = [['a','b'], ['c'], ['b']] := by
    rw [getWords, getWordsAux_eq_fuel 1000000 _ [] [] (by decide)]
    decide
  exact ⟨h, by rw [h]; decide, by decide⟩

/-- C3: membership is exactly prior insertion.  For every trie built by a
sequence of valid insertions and every valid word `w`, `isWord` answers
true iff `w` is one of the inserted words; never-inserted strict prefixes
and extensions therefore answer false. -/
theorem contains_iff_inserted (ws : List (List Char)) (w : List Char)
    (hws : ∀ u ∈ ws, validWord u) (hw : validWord w) :
    (isWord (buildTrie ws) w = true ↔ w ∈ ws) := by
  rw [buildTrie, isWord_foldl ws freshTrie alloc_fresh hws w hw.2]
  simp [isWord_fresh]

/-- Witness for C3 at the `"car"` / `"cart"` scenario: the inserted words
answer true, the never-inserted prefix `"ca"` and extension `"cars"`
answer false. -/
theorem contains_iff_inserted_witness :
    (isWord (buildTrie [['c','a','r'], ['c','a','r','t']]) ['c','a','r'] = true ↔
      ['c','a','r'] ∈ [['c','a','r'], ['c','a','r','t']]) ∧
    (isWord (buildTrie [['c','a','r'], ['c','a','r','t']]) ['c','a'] = true ↔
      ['c','a'] ∈ [['c','a','r'], ['c','a','r','t']]) ∧
    (isWord (buildTrie [['c','a','r'], ['c','a','r','t']]) ['c','a','r','s'] = true ↔
      ['c','a','r','s'] ∈ [['c','a','r'], ['c','a','r','t']]) :=
  ⟨contains_iff_inserted [['c','a','r'], ['c','a','r','t']] ['c','a','r']
      (by decide) (by decide),
   contains_iff_inserted [['c','a','r'], ['c','a','r','t']] ['c','a']
      (by decide) (by decide),
   contains_iff_inserted [['c','a','r'], ['c','a','r','t']] ['c','a','r','s']
      (by decide) (by decide)⟩

/-- C4 (amended): in a checked build, `insert` and `isWord` abort exactly
on strings containing a character outside `a..z`; the empty string passes
the `isLower` check, so neither operation aborts on it.  When the check
fires (result `none`) the trie has not been mutated, the assertion being
the first statement of both operations. -/
theorem checked_abort_iff (t : TrieNode) (s : List Char) :
    (insertChecked t s = none ↔ ∃ c ∈ s, isLowerChar c = false) ∧
    (isWordChecked t s = none ↔ ∃ c ∈ s, isLowerChar c = false) := by
  have h : isLower s = false ↔ ∃ c ∈ s, isLowerChar c = false := by
    rw [isLower]
    simp [List.all_eq_false]
  by_cases hl : isLower s = true
  · have hnex : ¬ ∃ c ∈ s, isLowerChar c = false := by
      rw [← h]
      simp [hl]
    refine ⟨?_, ?_⟩
    · rw [insertChecked, if_pos hl]
      simp [hnex]
    · rw [isWordChecked, if_pos hl]
      simp [hnex]
  · have hl' : isLower s = false := by
      revert hl
      cases isLower s <;> simp
    have hex : ∃ c ∈ s, isLowerChar c = false := h.mp hl'
    refine ⟨?_, ?_⟩
    · rw [insertChecked, if_neg (by rw [hl']; simp)]
      simp [hex]
    · rw [isWordChecked, if_neg (by rw [hl']; simp)]
      simp [hex]

/-- C4 counterexample: the empty string is invalid input per the spec,
yet `isLower("")` is vacuously true, so the checked build does not abort:
`insert` proceeds (as a no-op) and `isWord` returns false. -/
theorem checked_empty_no_abort :
    isLower [] = true ∧ insertChecked freshTrie [] = some freshTrie ∧
    isWordChecked freshTrie [] = some false ∧ insertChecked freshTrie [] ≠ none :=
  ⟨rfl, rfl, rfl, Option.some_ne_none _⟩

/-- C5: insertion is idempotent — inserting the same word twice yields
the very same trie state as inserting it once, hence the same `isWord`
answers and the same `getWords` output. -/
theorem insert_idempotent (t : TrieNode) (w : List Char) :
    insert (insert t w) w = insert t w ∧
    (∀ u : List Char, isWord (insert (insert t w) w) u = isWord (insert t w) u) ∧
    getWords (insert (insert t w) w) = getWords (insert t w) := by
  have h : insert (insert t w) w = insert t w := by
    simp only [insert, TrieNode.data_mk, TrieNode.isWord_mk, TrieNode.children_mk]
    rw [insertCh_idem]
  exact ⟨h, fun u => by rw [h], by rw [h]⟩

/-- C6: insertion order is irrelevant — permuting the list of valid words
inserted into a fresh trie yields the identical trie state, hence the
same `isWord` answers on every input and the same `getWords` output. -/
theorem insert_order_irrelevance (l₁ l₂ : List (List Char)) (hp : l₁.Perm l₂)
    (hval : ∀ u ∈ l₁, validWord u) :
    buildTrie l₁ = buildTrie l₂ ∧
    (∀ w : List Char, isWord (buildTrie l₁) w = isWord (buildTrie l₂) w) ∧
    getWords (buildTrie l₁) = getWords (buildTrie l₂) := by
  have h : buildTrie l₁ = buildTrie l₂ :=
    foldl_insert_perm hp (fun u hu => (hval u hu).2) freshTrie alloc_fresh
  exact ⟨h, fun w => by rw [h], by rw [h]⟩

/-- Witness for C6 on a concrete permutation of three words. -/
theorem insert_order_irrelevance_witness :
    buildTrie [['a','b'], ['b','a'], ['a']] = buildTrie [['a'], ['b','a'], ['a','b']] ∧
    (∀ w : List Char, isWord (buildTrie [['a','b'], ['b','a'], ['a']]) w =
      isWord (buildTrie [['a'], ['b','a'], ['a','b']]) w) ∧
    getWords (buildTrie [['a','b'], ['b','a'], ['a']]) =
      getWords (buildTrie [['a'], ['b','a'], ['a','b']]) :=
  insert_order_irrelevance [['a','b'], ['b','a'], ['a']] [['a'], ['b','a'], ['a','b']]
    (by decide) (by decide)

/-- C7: `isWord` and `getWords` are pure reads — run as state
transformers they return the node graph unchanged, so every later
`isWord` answer and `getWords` result is the same as before the call. -/
theorem reads_pure (t : TrieNode) (s : List Char) :
    (containsRun t s).2 = t ∧ (getWordsRun t).2 = t ∧
    (∀ w : List Char, isWord (containsRun t s).2 w = isWord t w) ∧
    getWords (containsRun t s).2 = getWords t ∧
    (∀ w : List Char, isWord (getWordsRun t).2 w = isWord t w) ∧
    getWords (getWordsRun t).2 = getWords t :=
  ⟨rfl, rfl, fun _ => rfl, rfl, fun _ => rfl, rfl⟩

theorem applyOp_fields (t : TrieNode) (op : Op) :
    (applyOp t op).data = t.data ∧ (applyOp t op).isWord = t.isWord := by
  cases op with
  | ins w => exact ⟨rfl, rfl⟩
  | qry w => exact ⟨rfl, rfl⟩
  | enum => exact ⟨rfl, rfl⟩

theorem runOps_fields (ops : List Op) :
    ∀ t : TrieNode, (runOps t ops).data = t.data ∧ (runOps t ops).isWord = t.isWord := by
  induction ops with
  | nil => intro t; exact ⟨rfl, rfl⟩
  | cons op ops ih =>
    intro t
    refine ⟨?_, ?_⟩
    · calc (runOps t (op :: ops)).data = (runOps (applyOp t op) ops).data := rfl
        _ = (applyOp t op).data := (ih (applyOp t op)).1
        _ = t.data := (applyOp_fields t op).1
    · calc (runOps t (op :: ops)).isWord = (runOps (applyOp t op) ops).isWord := rfl
        _ = (applyOp t op).isWord := (ih (applyOp t op)).2
        _ = t.isWord := (applyOp_fields t op).2

/-- C8: root identity — after any sequence of insert, contains and words
operations on a fresh trie, the root's label is still the `'\0'`
sentinel and its terminal flag is still false. -/
theorem root_identity (ops : List Op) :
    (runOps freshTrie ops).data = nul ∧ (runOps freshTrie ops).isWord = false :=
  ⟨(runOps_fields ops freshTrie).1, (runOps_fields ops freshTrie).2⟩

/-- C9: the empty-string edge case — `isLower("")` is true, so neither
checked operation aborts; `isWord` returns false and `insert` returns
the trie unchanged. -/
theorem empty_string_edge (t : TrieNode) :
    isLower [] = true ∧ isWord t [] = false ∧ isWordChecked t [] = some false ∧
    insert t [] = t ∧ insertChecked t [] = some t := by
  have hins : insert t [] = t := by
    cases t
    rfl
  refine ⟨rfl, rfl, rfl, hins, ?_⟩
  show some (insert t []) = some t
  rw [hins]

/-- C10: the eager-allocation invariant — after any sequence of valid
insertions the root and every node reachable through occupied slots
carries exactly 26 child slots, every empty slot is a
default-constructed node, and consequently any node in the tree whose
terminal flag is set has a (26-slot, hence non-empty) children vector. -/
theorem alloc_invariant (ws : List (List Char)) (hws : ∀ u ∈ ws, validWord u) :
    Alloc (buildTrie ws) ∧
    ∀ n : TrieNode, InTree n (buildTrie ws) → n.isWord = true → n.children.length = 26 := by
  have h := alloc_buildTrie ws (fun u hu => (hws u hu).2)
  exact ⟨h, alloc_terminal_children h⟩

/-- Witness for C10 after inserting `"ab"`. -/
theorem alloc_invariant_witness :
    Alloc (buildTrie [['a','b']]) ∧
    ∀ n : TrieNode, InTree n (buildTrie [['a','b']]) → n.isWord = true →
      n.children.length = 26 :=
  alloc_invariant [['a','b']] (by decide)

end Trie
